import Mathlib

/-!
Verification of the PokerBraids braid engine.

The definitions below are a shallow embedding of the Rust sources:
  * `Generator`, `ActionType`, `Action`  — `braid-engine/src/types.rs`
  * `safe_seat`, `expand_action`         — `braid-engine/src/mapping.rs`
  * `normPass`, `normalize`              — `braid-engine/src/normalization.rs`
  * `FingerprintState` and its methods   — `braid-engine/src/invariants.rs`

Machine integers (`usize`, `i32`) are modelled as `ℕ` / `ℤ`; the complex
floating point matrix arithmetic (`Complex<f64>`) is modelled by exact
complex arithmetic over `ℂ`.
-/

namespace PokerBraids

/-- Artin generator for braid groups: `Sigma i` is σ_i (overcrossing),
`InverseSigma i` is σ_i⁻¹ (undercrossing). Mirrors `types.rs::Generator`. -/
inductive Generator where
  | Sigma (i : ℕ)
  | InverseSigma (i : ℕ)
deriving DecidableEq, Repr

/-- The 1-based index of the generator, mirrors `Generator::index`. -/
def Generator.index : Generator → ℕ
  | .Sigma i => i
  | .InverseSigma i => i

/-- Mirrors `Generator::is_overcrossing`. -/
def Generator.is_overcrossing : Generator → Bool
  | .Sigma _ => true
  | .InverseSigma _ => false

/-- Mirrors `Generator::is_undercrossing`. -/
def Generator.is_undercrossing : Generator → Bool
  | .Sigma _ => false
  | .InverseSigma _ => true

/-- Mirrors `mapping.rs::safe_seat`: maps a 1-based seat into `[1, total]`
by `((seat - 1) % total) + 1`, with fallback `1` when `total = 0`. -/
def safe_seat (seat total : ℕ) : ℕ :=
  if total = 0 then 1
  else (seat - 1) % total + 1

/-- The `while current != to_val` loop body of `mapping.rs::expand_action`:
walks the integer line from `current` to `target`, emitting `Sigma current`
on a forward step and `InverseSigma (current - 1)` on a backward step. -/
def expandSteps (current target : ℕ) : List Generator :=
  if current = target then []
  else if current < target then
    Generator.Sigma current :: expandSteps (current + 1) target
  else
    Generator.InverseSigma (current - 1) :: expandSteps (current - 1) target
termination_by (target - current) + (current - target)
decreasing_by
  all_goals omega

/-- Mirrors `mapping.rs::expand_action`: returns empty on a raw seat value
of `0`, maps both seats through `safe_seat`, returns empty when they agree,
and otherwise decomposes the movement into adjacent transpositions. -/
def expand_action (from_val to_val : ℕ) (total_seats : ℕ) : List Generator :=
  if from_val = 0 ∨ to_val = 0 then []
  else
    let f := safe_seat from_val total_seats
    let t := safe_seat to_val total_seats
    if f = t then []
    else expandSteps f t

/-- Mirrors the adjacency test inside `normalization.rs::normalize`:
`Sigma k` and `InverseSigma k` (either order, same `k`) are inverses. -/
def are_inverses (a b : Generator) : Bool :=
  match a, b with
  | .Sigma k1, .InverseSigma k2 => k1 == k2
  | .InverseSigma k1, .Sigma k2 => k1 == k2
  | _, _ => false

/-- One left-to-right pass of `normalization.rs::normalize`: whenever two
adjacent elements are mutual inverses both are dropped and the scan resumes
after the gap; otherwise the element is kept. -/
def normPass : List Generator → List Generator
  | [] => []
  | [g] => [g]
  | g1 :: g2 :: rest =>
    if are_inverses g1 g2 then normPass rest
    else g1 :: normPass (g2 :: rest)

theorem normPass_length_le : ∀ l : List Generator, (normPass l).length ≤ l.length
  | [] => by simp [normPass]
  | [g] => by simp [normPass]
  | g1 :: g2 :: rest => by
    by_cases h : are_inverses g1 g2
    · have := normPass_length_le rest
      simp only [normPass, h, if_true, List.length_cons]
      omega
    · have := normPass_length_le (g2 :: rest)
      simp only [normPass, h, Bool.false_eq_true, if_false, List.length_cons] at *
      omega

theorem normPass_lt_of_ne : ∀ l : List Generator, normPass l ≠ l →
    (normPass l).length < l.length
  | [], h => by simp [normPass] at h
  | [g], h => by simp [normPass] at h
  | g1 :: g2 :: rest, h => by
    by_cases hinv : are_inverses g1 g2
    · have := normPass_length_le rest
      simp only [normPass, hinv, if_true, List.length_cons]
      omega
    · simp only [normPass, hinv, Bool.false_eq_true, if_false,
        List.length_cons] at h ⊢
      have hne : normPass (g2 :: rest) ≠ g2 :: rest := by
        intro he; exact h (by rw [he])
      have := normPass_lt_of_ne (g2 :: rest) hne
      simp only [List.length_cons] at this
      omega

/-- Mirrors `normalization.rs::normalize`: repeats `normPass` until a pass
makes no change (the Rust `changed` flag is set exactly when a pass removed
a pair, which shortens the word, so "no change" is "pass returns its
input"). -/
def normalize (l : List Generator) : List Generator :=
  if normPass l = l then normPass l
  else normalize (normPass l)
termination_by l.length
decreasing_by
  exact normPass_lt_of_ne l (by assumption)

/-- Decides whether a word contains two adjacent mutually inverse
generators. -/
def has_adjacent_inverses : List Generator → Bool
  | [] => false
  | [_] => false
  | g1 :: g2 :: rest => are_inverses g1 g2 || has_adjacent_inverses (g2 :: rest)

theorem normPass_fixed_no_adjacent : ∀ l : List Generator, normPass l = l →
    has_adjacent_inverses l = false
  | [], _ => rfl
  | [_], _ => rfl
  | g1 :: g2 :: rest, h => by
    by_cases hinv : are_inverses g1 g2
    · exfalso
      have hle := normPass_length_le rest
      have : (normPass (g1 :: g2 :: rest)).length = (g1 :: g2 :: rest).length := by
        rw [h]
      simp only [normPass, hinv, if_true, List.length_cons] at this
      omega
    · simp only [normPass, hinv, Bool.false_eq_true, if_false, List.cons.injEq,
        true_and] at h
      have := normPass_fixed_no_adjacent (g2 :: rest) h
      simp [has_adjacent_inverses, hinv, this]

/-- Poker action kinds, mirrors `types.rs::ActionType`. -/
inductive ActionType where
  | Fold
  | Check
  | Call
  | Bet
  | Raise
  | ReRaise
  | AllIn
  | Reset
deriving DecidableEq, Repr

/-- Mirrors `types.rs::Action` (the `Seat` newtype is modelled by its raw
`usize` value). -/
structure Action where
  seat : ℕ
  action_type : ActionType
  amount : ℕ

/-- Mirrors `invariants.rs::PlayerMetrics`. -/
structure PlayerMetrics where
  name : String
  writhe : ℤ
  complexity : ℝ

/-- Mirrors `invariants.rs::FingerprintState`. The `dimension` field of the
Rust struct, fixed at construction, is carried as a type index `d`; the
`HashMap<usize, PlayerMetrics>` is modelled as `ℕ → Option PlayerMetrics`. -/
structure FingerprintState (d : ℕ) where
  writhe : ℤ
  crossing_count : ℕ
  burau_matrix : Matrix (Fin d) (Fin d) ℂ
  t_param : ℂ
  jones_poly_cache : Option String
  player_stats : ℕ → Option PlayerMetrics

noncomputable section

/-- The "Golden Phase" parameter `t = cos 1 + i·sin 1 = e^{i}` chosen in
`FingerprintState::new`. -/
def golden_t : ℂ := ⟨Real.cos 1, Real.sin 1⟩

/-- Mirrors `FingerprintState::new`. -/
def FingerprintState.new (d : ℕ) : FingerprintState d where
  writhe := 0
  crossing_count := 0
  burau_matrix := 1
  t_param := golden_t
  jones_poly_cache := none
  player_stats := fun _ => none

/-- Mirrors `FingerprintState::reset` (the Burau matrix returns to identity,
counters zero, player stats cleared; `t_param` and the Jones cache are left
alone, and the dimension index is untouched). -/
def FingerprintState.reset {d : ℕ} (s : FingerprintState d) : FingerprintState d :=
  { s with
    writhe := 0
    crossing_count := 0
    burau_matrix := 1
    player_stats := fun _ => none }

/-- Mirrors the accessor `FingerprintState::dimension`. -/
def FingerprintState.dimension {d : ℕ} (_ : FingerprintState d) : ℕ := d

/-- Mirrors `FingerprintState::burau_trace_magnitude`: modulus of the sum of
the diagonal entries. -/
def FingerprintState.burau_trace_magnitude {d : ℕ} (s : FingerprintState d) : ℝ :=
  Complex.abs (∑ a, s.burau_matrix a a)

/-- The Burau generator matrix `U_k` built inside
`FingerprintState::apply_sigma_matrix`: the identity except for the 2×2
block at 0-based rows/cols `(k-1, k)`, which is `[[1-t, t], [1, 0]]`. -/
def u_mat (d : ℕ) (t : ℂ) (k : ℕ) : Matrix (Fin d) (Fin d) ℂ :=
  Matrix.of fun a b =>
    if a.val = k - 1 ∧ b.val = k - 1 then 1 - t
    else if a.val = k - 1 ∧ b.val = k then t
    else if a.val = k ∧ b.val = k - 1 then 1
    else if a.val = k ∧ b.val = k then 0
    else if a = b then 1 else 0

/-- The inverse generator matrix `U_k⁻¹` built inside
`FingerprintState::apply_inverse_sigma_matrix`: the identity except for the
2×2 block at `(k-1, k)`, which is `[[0, 1], [1/t, 1-1/t]]`. -/
def u_inv_mat (d : ℕ) (t : ℂ) (k : ℕ) : Matrix (Fin d) (Fin d) ℂ :=
  Matrix.of fun a b =>
    if a.val = k - 1 ∧ b.val = k - 1 then 0
    else if a.val = k - 1 ∧ b.val = k then 1
    else if a.val = k ∧ b.val = k - 1 then 1 / t
    else if a.val = k ∧ b.val = k then 1 - 1 / t
    else if a = b then 1 else 0

/-- Mirrors `FingerprintState::apply_sigma_matrix`: a silent no-op when
`k = 0` or `k ≥ dimension`, otherwise `M ← M · U_k`. -/
def FingerprintState.apply_sigma_matrix {d : ℕ} (s : FingerprintState d)
    (k : ℕ) : FingerprintState d :=
  if k = 0 ∨ d ≤ k then s
  else { s with burau_matrix := s.burau_matrix * u_mat d s.t_param k }

/-- Mirrors `FingerprintState::apply_inverse_sigma_matrix`: a silent no-op
when `k = 0` or `k ≥ dimension`, otherwise `M ← M · U_k⁻¹`. -/
def FingerprintState.apply_inverse_sigma_matrix {d : ℕ} (s : FingerprintState d)
    (k : ℕ) : FingerprintState d :=
  if k = 0 ∨ d ≤ k then s
  else { s with burau_matrix := s.burau_matrix * u_inv_mat d s.t_param k }

/-- Mirrors `IncrementalUpdate::update` for `FingerprintState`: writhe `+1`
for `Sigma`, `-1` for `InverseSigma`, the corresponding matrix update, and
`crossing_count + 1` unconditionally. -/
def FingerprintState.update {d : ℕ} (s : FingerprintState d)
    (g : Generator) : FingerprintState d :=
  let s' :=
    match g with
    | .Sigma k => { s.apply_sigma_matrix k with writhe := s.writhe + 1 }
    | .InverseSigma k => { s.apply_inverse_sigma_matrix k with writhe := s.writhe - 1 }
  { s' with crossing_count := s'.crossing_count + 1 }

/-- Mirrors `FingerprintState::update_for_seat`: global update first, then
per-seat bookkeeping unless `seat` is outside `[1, dimension]`. -/
def FingerprintState.update_for_seat {d : ℕ} (s : FingerprintState d)
    (g : Generator) (seat : ℕ) (name : String) : FingerprintState d :=
  let s' := s.update g
  if seat = 0 ∨ d < seat then s'
  else
    let m0 := (s'.player_stats seat).getD { name := name, writhe := 0, complexity := 0 }
    let m1 := if name ≠ "" then { m0 with name := name } else m0
    let m2 :=
      match g with
      | .Sigma _ => { m1 with writhe := m1.writhe + 1 }
      | .InverseSigma _ => { m1 with writhe := m1.writhe - 1 }
    let m3 :=
      if h : seat - 1 < d then
        { m2 with
          complexity := Complex.abs (s'.burau_matrix ⟨seat - 1, h⟩ ⟨seat - 1, h⟩) }
      else m2
    { s' with player_stats := Function.update s'.player_stats seat (some m3) }

/-- Mirrors `FingerprintState::process_action`: `Reset` resets and reports
`0` applied generators; otherwise the movement from `current_seat` (or the
action's own seat) to the action's seat is expanded and each generator is
applied through the global `update`. Returns the new state together with
the count of generators applied. -/
def FingerprintState.process_action {d : ℕ} (s : FingerprintState d)
    (action : Action) (current_seat : Option ℕ) : FingerprintState d × ℕ :=
  if action.action_type = ActionType.Reset then (s.reset, 0)
  else
    let from_seat := current_seat.getD action.seat
    let generators := expand_action from_seat action.seat s.dimension
    (generators.foldl (fun st g => st.update g) s, generators.length)

end

theorem u_mat_apply (d : ℕ) (t : ℂ) (k : ℕ) (a b : Fin d) :
    u_mat d t k a b =
      if a.val = k - 1 ∧ b.val = k - 1 then 1 - t
      else if a.val = k - 1 ∧ b.val = k then t
      else if a.val = k ∧ b.val = k - 1 then 1
      else if a.val = k ∧ b.val = k then 0
      else if a = b then 1 else 0 := rfl

theorem u_inv_mat_apply (d : ℕ) (t : ℂ) (k : ℕ) (a b : Fin d) :
    u_inv_mat d t k a b =
      if a.val = k - 1 ∧ b.val = k - 1 then 0
      else if a.val = k - 1 ∧ b.val = k then 1
      else if a.val = k ∧ b.val = k - 1 then 1 / t
      else if a.val = k ∧ b.val = k then 1 - 1 / t
      else if a = b then 1 else 0 := rfl

theorem u_mat_row_other {d k : ℕ} {t : ℂ} {a : Fin d}
    (h1 : a.val ≠ k - 1) (h2 : a.val ≠ k) (c : Fin d) :
    u_mat d t k a c = if a = c then 1 else 0 := by
  rw [u_mat_apply, if_neg (by tauto), if_neg (by tauto), if_neg (by tauto),
    if_neg (by tauto)]

theorem u_inv_mat_row_other {d k : ℕ} {t : ℂ} {a : Fin d}
    (h1 : a.val ≠ k - 1) (h2 : a.val ≠ k) (c : Fin d) :
    u_inv_mat d t k a c = if a = c then 1 else 0 := by
  rw [u_inv_mat_apply, if_neg (by tauto), if_neg (by tauto), if_neg (by tauto),
    if_neg (by tauto)]

theorem row_sum_two {d k : ℕ} (hk1 : 1 ≤ k) (hk1d : k - 1 < d) (hk2 : k < d)
    (f : Fin d → ℂ) (hz : ∀ c : Fin d, c.val ≠ k - 1 → c.val ≠ k → f c = 0) :
    ∑ c, f c = f ⟨k - 1, hk1d⟩ + f ⟨k, hk2⟩ := by
  refine Finset.sum_eq_add_of_mem _ _ (Finset.mem_univ _) (Finset.mem_univ _)
    (by simp only [ne_eq, Fin.mk.injEq]; omega) ?_
  intro c _ hc
  exact hz c (fun h => hc.1 (Fin.ext h)) (fun h => hc.2 (Fin.ext h))

/-- The elementary Burau matrices at a valid index are mutually inverse:
`U_k · U_k⁻¹ = 1` whenever `t ≠ 0` and `1 ≤ k < d`. -/
theorem u_mul_u_inv {d : ℕ} (t : ℂ) (ht : t ≠ 0) (k : ℕ)
    (hk1 : 1 ≤ k) (hk2 : k < d) :
    u_mat d t k * u_inv_mat d t k = 1 := by
  have hk1d : k - 1 < d := by omega
  have hkk : k - 1 ≠ k := by omega
  ext a b
  rw [Matrix.mul_apply, Matrix.one_apply]
  by_cases hai : a.val = k - 1
  · rw [row_sum_two hk1 hk1d hk2 _ (fun c hc1 hc2 => by
      rw [u_mat_apply, if_neg (by simp <;> omega), if_neg (by simp <;> omega), if_neg (by simp <;> omega),
        if_neg (by simp <;> omega), if_neg (fun h => hc1 (by rw [← h]; exact hai)),
        zero_mul])]
    rw [u_mat_apply, if_pos ⟨hai, rfl⟩,
      u_mat_apply d t k a ⟨k, hk2⟩, if_neg (by simp <;> omega), if_pos ⟨hai, rfl⟩]
    by_cases hbi : b.val = k - 1
    · have hab : a = b := Fin.ext (by rw [hai, hbi])
      rw [u_inv_mat_apply, if_pos ⟨rfl, hbi⟩,
        u_inv_mat_apply, if_neg (by simp <;> omega), if_neg (by simp <;> omega),
        if_pos ⟨rfl, hbi⟩, if_pos hab]
      field_simp
    · by_cases hbj : b.val = k
      · have hab : ¬ a = b := fun h => hbi (by rw [← h]; exact hai)
        rw [u_inv_mat_apply, if_neg (by simp <;> omega), if_pos ⟨rfl, hbj⟩,
          u_inv_mat_apply, if_neg (by simp <;> omega), if_neg (by simp <;> omega),
          if_neg (by simp <;> omega), if_pos ⟨rfl, hbj⟩, if_neg hab]
        field_simp
      · have hab : ¬ a = b := fun h => hbi (by rw [← h]; exact hai)
        rw [u_inv_mat_apply, if_neg (by simp <;> omega), if_neg (by simp <;> omega),
          if_neg (by simp <;> omega), if_neg (by simp <;> omega),
          if_neg (fun h : (⟨k - 1, hk1d⟩ : Fin d) = b => hbi (by rw [← h])),
          u_inv_mat_apply, if_neg (by simp <;> omega), if_neg (by simp <;> omega),
          if_neg (by simp <;> omega), if_neg (by simp <;> omega),
          if_neg (fun h : (⟨k, hk2⟩ : Fin d) = b => hbj (by rw [← h])),
          if_neg hab]
        ring
  · by_cases haj : a.val = k
    · rw [row_sum_two hk1 hk1d hk2 _ (fun c hc1 hc2 => by
        rw [u_mat_apply, if_neg (by simp <;> omega), if_neg (by simp <;> omega), if_neg (by simp <;> omega),
          if_neg (by simp <;> omega), if_neg (fun h => hc2 (by rw [← h]; exact haj)),
          zero_mul])]
      rw [u_mat_apply, if_neg (by simp <;> omega), if_neg (by simp <;> omega), if_pos ⟨haj, rfl⟩,
        u_mat_apply d t k a ⟨k, hk2⟩, if_neg (by simp <;> omega), if_neg (by simp <;> omega),
        if_neg (by simp <;> omega), if_pos ⟨haj, rfl⟩, one_mul, zero_mul, add_zero]
      by_cases hbi : b.val = k - 1
      · have hab : ¬ a = b := fun h => hai (by rw [h]; exact hbi)
        rw [u_inv_mat_apply, if_pos ⟨rfl, hbi⟩, if_neg hab]
      · by_cases hbj : b.val = k
        · have hab : a = b := Fin.ext (by rw [haj, hbj])
          rw [u_inv_mat_apply, if_neg (by simp <;> omega), if_pos ⟨rfl, hbj⟩, if_pos hab]
        · have hab : ¬ a = b := fun h => hbj (by rw [← h]; exact haj)
          rw [u_inv_mat_apply, if_neg (by simp <;> omega), if_neg (by simp <;> omega),
            if_neg (by simp <;> omega), if_neg (by simp <;> omega),
            if_neg (fun h : (⟨k - 1, hk1d⟩ : Fin d) = b => hbi (by rw [← h])),
            if_neg hab]
    · have hone : ∑ c, u_mat d t k a c * u_inv_mat d t k c b
          = u_mat d t k a a * u_inv_mat d t k a b := by
        refine Finset.sum_eq_single_of_mem a (Finset.mem_univ a) ?_
        intro c _ hc
        rw [u_mat_row_other hai haj, if_neg (fun h => hc h.symm), zero_mul]
      rw [hone, u_mat_row_other hai haj, if_pos rfl, one_mul,
        u_inv_mat_row_other hai haj]

/-- Claim C8: `safe_seat` computes `((seat-1) mod total) + 1 ∈ [1, total]` for
`seat ≥ 1`, `total ≥ 1`; returns `1` when `total = 0`; and takes the three
documented example values. -/
theorem safe_seat_spec (seat total : ℕ) (hs : 1 ≤ seat) (ht : 1 ≤ total) :
    safe_seat seat total = (seat - 1) % total + 1 ∧
    1 ≤ safe_seat seat total ∧
    safe_seat seat total ≤ total ∧
    (∀ s, safe_seat s 0 = 1) ∧
    safe_seat 10 9 = 1 ∧ safe_seat 12 9 = 3 ∧ safe_seat 18 9 = 9 := by
  have htz : total ≠ 0 := by omega
  have hmod : (seat - 1) % total < total := Nat.mod_lt _ (by omega)
  refine ⟨by simp [safe_seat, htz], ?_, ?_, ?_, by decide, by decide, by decide⟩
  · simp [safe_seat, htz]
  · simp only [safe_seat, htz, if_false]
    omega
  · intro s; simp [safe_seat]

/-- Witness for `safe_seat_spec` at `seat = 10`, `total = 9`. -/
theorem safe_seat_spec_witness :
    safe_seat 10 9 = (10 - 1) % 9 + 1 ∧
    1 ≤ safe_seat 10 9 ∧
    safe_seat 10 9 ≤ 9 ∧
    (∀ s, safe_seat s 0 = 1) ∧
    safe_seat 10 9 = 1 ∧ safe_seat 12 9 = 3 ∧ safe_seat 18 9 = 9 :=
  safe_seat_spec 10 9 (by decide) (by decide)

theorem safe_seat_pos (s t : ℕ) : 1 ≤ safe_seat s t := by
  unfold safe_seat; split <;> omega

theorem safe_seat_le (s t : ℕ) (ht : 1 ≤ t) : safe_seat s t ≤ t := by
  have : (s - 1) % t < t := Nat.mod_lt _ (by omega)
  unfold safe_seat; split <;> omega

theorem expandSteps_up (c n : ℕ) :
    expandSteps c (c + n) = (List.range' c n).map Generator.Sigma := by
  induction n generalizing c with
  | zero => rw [expandSteps]; simp
  | succ n ih =>
    rw [expandSteps]
    have h1 : ¬ c = c + (n + 1) := by omega
    have h2 : c < c + (n + 1) := by omega
    simp only [h1, if_false, h2, if_true]
    have : c + (n + 1) = (c + 1) + n := by omega
    rw [this, ih (c + 1), List.range'_succ]
    simp

theorem expandSteps_down (t n : ℕ) :
    expandSteps (t + n) t = ((List.range' t n).reverse).map Generator.InverseSigma := by
  induction n with
  | zero => rw [expandSteps]; simp
  | succ n ih =>
    rw [expandSteps]
    have h1 : ¬ t + (n + 1) = t := by omega
    have h2 : ¬ t + (n + 1) < t := by omega
    simp only [h1, if_false, h2, if_false]
    have h3 : t + (n + 1) - 1 = t + n := by omega
    rw [h3, ih, List.range'_concat]
    simp

/-- Full characterization of `expand_action` on nonzero raw seats, in terms
of the `safe_seat`-mapped endpoints. -/
theorem expand_action_eq (from_val to_val total : ℕ)
    (hf : from_val ≠ 0) (ht : to_val ≠ 0) :
    expand_action from_val to_val total =
      (if safe_seat from_val total ≤ safe_seat to_val total then
        (List.range' (safe_seat from_val total)
          (safe_seat to_val total - safe_seat from_val total)).map Generator.Sigma
      else
        ((List.range' (safe_seat to_val total)
          (safe_seat from_val total - safe_seat to_val total)).reverse).map
            Generator.InverseSigma) := by
  unfold expand_action
  have hne : ¬ (from_val = 0 ∨ to_val = 0) := by omega
  simp only [hne, if_false]
  set f := safe_seat from_val total with hfdef
  set t := safe_seat to_val total with htdef
  by_cases heq : f = t
  · simp [heq]
  · simp only [heq, if_false]
    rcases Nat.lt_or_ge f t with hlt | hge
    · have : t = f + (t - f) := by omega
      rw [this, expandSteps_up]
      have : f ≤ t := by omega
      simp [this]
    · have hgt : t < f := by omega
      have : f = t + (f - t) := by omega
      rw [this, expandSteps_down]
      have h0 : f - t ≠ 0 := by omega
      simp [h0]

theorem apply_sigma_fields {d : ℕ} (s : FingerprintState d) (k : ℕ) :
    (s.apply_sigma_matrix k).writhe = s.writhe ∧
    (s.apply_sigma_matrix k).crossing_count = s.crossing_count ∧
    (s.apply_sigma_matrix k).t_param = s.t_param ∧
    (s.apply_sigma_matrix k).player_stats = s.player_stats ∧
    (s.apply_sigma_matrix k).jones_poly_cache = s.jones_poly_cache := by
  unfold FingerprintState.apply_sigma_matrix
  split <;> exact ⟨rfl, rfl, rfl, rfl, rfl⟩

theorem apply_inverse_sigma_fields {d : ℕ} (s : FingerprintState d) (k : ℕ) :
    (s.apply_inverse_sigma_matrix k).writhe = s.writhe ∧
    (s.apply_inverse_sigma_matrix k).crossing_count = s.crossing_count ∧
    (s.apply_inverse_sigma_matrix k).t_param = s.t_param ∧
    (s.apply_inverse_sigma_matrix k).player_stats = s.player_stats ∧
    (s.apply_inverse_sigma_matrix k).jones_poly_cache = s.jones_poly_cache := by
  unfold FingerprintState.apply_inverse_sigma_matrix
  split <;> exact ⟨rfl, rfl, rfl, rfl, rfl⟩

theorem apply_sigma_matrix_noop {d : ℕ} (s : FingerprintState d) (k : ℕ)
    (h : k = 0 ∨ d ≤ k) : s.apply_sigma_matrix k = s := by
  unfold FingerprintState.apply_sigma_matrix
  rw [if_pos h]

theorem apply_inverse_sigma_matrix_noop {d : ℕ} (s : FingerprintState d) (k : ℕ)
    (h : k = 0 ∨ d ≤ k) : s.apply_inverse_sigma_matrix k = s := by
  unfold FingerprintState.apply_inverse_sigma_matrix
  rw [if_pos h]

theorem apply_sigma_matrix_mul {d : ℕ} (s : FingerprintState d) (k : ℕ)
    (h : ¬ (k = 0 ∨ d ≤ k)) :
    (s.apply_sigma_matrix k).burau_matrix = s.burau_matrix * u_mat d s.t_param k := by
  unfold FingerprintState.apply_sigma_matrix
  rw [if_neg h]

theorem apply_inverse_sigma_matrix_mul {d : ℕ} (s : FingerprintState d) (k : ℕ)
    (h : ¬ (k = 0 ∨ d ≤ k)) :
    (s.apply_inverse_sigma_matrix k).burau_matrix
      = s.burau_matrix * u_inv_mat d s.t_param k := by
  unfold FingerprintState.apply_inverse_sigma_matrix
  rw [if_neg h]

theorem update_nonmatrix_fields {d : ℕ} (s : FingerprintState d) (g : Generator) :
    (s.update g).t_param = s.t_param ∧
    (s.update g).player_stats = s.player_stats ∧
    (s.update g).jones_poly_cache = s.jones_poly_cache := by
  cases g with
  | Sigma k =>
    have h := apply_sigma_fields s k
    exact ⟨h.2.2.1, h.2.2.2.1, h.2.2.2.2⟩
  | InverseSigma k =>
    have h := apply_inverse_sigma_fields s k
    exact ⟨h.2.2.1, h.2.2.2.1, h.2.2.2.2⟩

theorem foldl_update_stats {d : ℕ} :
    ∀ (l : List Generator) (s : FingerprintState d),
      (l.foldl (fun st g => st.update g) s).player_stats = s.player_stats ∧
      (l.foldl (fun st g => st.update g) s).t_param = s.t_param
  | [], s => ⟨rfl, rfl⟩
  | g :: l, s => by
    have hrec := foldl_update_stats l (s.update g)
    have hu := update_nonmatrix_fields s g
    simp only [List.foldl_cons]
    exact ⟨hrec.1.trans hu.2.1, hrec.2.trans hu.1⟩

/-- Claim C5: after `normalize` returns, no two adjacent elements of the word are
mutual inverses, for every input word. -/
theorem normalize_no_adjacent_inverses (l : List Generator) :
    has_adjacent_inverses (normalize l) = false := by
  rw [normalize]
  split
  · next h => rw [h]; exact normPass_fixed_no_adjacent l h
  · exact normalize_no_adjacent_inverses (normPass l)
termination_by l.length
decreasing_by
  exact normPass_lt_of_ne l (by assumption)

/-- Claim C1: every `update` adds exactly `1` to `crossing_count` and moves
`writhe` by `+1` for `Sigma` / `-1` for `InverseSigma`, even when the
generator index is `0` or `≥ dimension`, in which case the Burau matrix is
left exactly unchanged — so the counters can change while the matrix stays
identical. -/
theorem update_counters (d : ℕ) (s : FingerprintState d) (g : Generator) :
    (s.update g).crossing_count = s.crossing_count + 1 ∧
    (g.is_overcrossing = true → (s.update g).writhe = s.writhe + 1) ∧
    (g.is_undercrossing = true → (s.update g).writhe = s.writhe - 1) ∧
    (g.index = 0 ∨ d ≤ g.index → (s.update g).burau_matrix = s.burau_matrix) := by
  cases g with
  | Sigma k =>
    refine ⟨?_, fun _ => ?_, fun h => by simp [Generator.is_undercrossing] at h, fun h => ?_⟩
    · show (s.apply_sigma_matrix k).crossing_count + 1 = s.crossing_count + 1
      rw [(apply_sigma_fields s k).2.1]
    · rfl
    · show (s.apply_sigma_matrix k).burau_matrix = s.burau_matrix
      rw [apply_sigma_matrix_noop s k h]
  | InverseSigma k =>
    refine ⟨?_, fun h => by simp [Generator.is_overcrossing] at h, fun _ => ?_, fun h => ?_⟩
    · show (s.apply_inverse_sigma_matrix k).crossing_count + 1 = s.crossing_count + 1
      rw [(apply_inverse_sigma_fields s k).2.1]
    · rfl
    · show (s.apply_inverse_sigma_matrix k).burau_matrix = s.burau_matrix
      rw [apply_inverse_sigma_matrix_noop s k h]

/-- Witness for `update_counters`: an out-of-range `Sigma 0` on a fresh
2-dimensional state bumps the counters while leaving the matrix identical. -/
theorem update_counters_witness :
    ((FingerprintState.new 2).update (Generator.Sigma 0)).crossing_count
        = (FingerprintState.new 2).crossing_count + 1 ∧
    ((FingerprintState.new 2).update (Generator.Sigma 0)).writhe
        = (FingerprintState.new 2).writhe + 1 ∧
    ((FingerprintState.new 2).update (Generator.Sigma 0)).burau_matrix
        = (FingerprintState.new 2).burau_matrix :=
  ⟨(update_counters 2 (FingerprintState.new 2) (Generator.Sigma 0)).1,
    (update_counters 2 (FingerprintState.new 2) (Generator.Sigma 0)).2.1 rfl,
    (update_counters 2 (FingerprintState.new 2) (Generator.Sigma 0)).2.2.2
      (Or.inl rfl)⟩

theorem trace_magnitude_one {d : ℕ} :
    Complex.abs (∑ a : Fin d, (1 : Matrix (Fin d) (Fin d) ℂ) a a) = d := by
  have h : ∑ a : Fin d, (1 : Matrix (Fin d) (Fin d) ℂ) a a = (d : ℂ) := by
    simp [Matrix.one_apply_eq]
  rw [h]
  exact Complex.abs_natCast d

/-- Claim C6: for `d ≥ 2`, a state freshly built by `new d`, and any state of
dimension `d` right after `reset`, has zero writhe, zero crossing count,
identity Burau matrix, trace magnitude `d`, an empty per-seat map, and
dimension still `d`. -/
theorem new_reset_spec (d : ℕ) (hd : 2 ≤ d) (s : FingerprintState d) :
    (FingerprintState.new d).writhe = 0 ∧
    (FingerprintState.new d).crossing_count = 0 ∧
    (FingerprintState.new d).burau_matrix = 1 ∧
    (FingerprintState.new d).burau_trace_magnitude = d ∧
    (FingerprintState.new d).player_stats = (fun _ => none) ∧
    (FingerprintState.new d).dimension = d ∧
    s.reset.writhe = 0 ∧
    s.reset.crossing_count = 0 ∧
    s.reset.burau_matrix = 1 ∧
    s.reset.burau_trace_magnitude = d ∧
    s.reset.player_stats = (fun _ => none) ∧
    s.reset.dimension = d :=
  ⟨rfl, rfl, rfl, trace_magnitude_one, rfl, rfl,
    rfl, rfl, rfl, trace_magnitude_one, rfl, rfl⟩

/-- Witness for `new_reset_spec` at `d = 2` with the freshly built state
itself in the reset role. -/
theorem new_reset_spec_witness :
    (FingerprintState.new 2).writhe = 0 ∧
    (FingerprintState.new 2).crossing_count = 0 ∧
    (FingerprintState.new 2).burau_matrix = 1 ∧
    (FingerprintState.new 2).burau_trace_magnitude = 2 ∧
    (FingerprintState.new 2).player_stats = (fun _ => none) ∧
    (FingerprintState.new 2).dimension = 2 ∧
    (FingerprintState.new 2).reset.writhe = 0 ∧
    (FingerprintState.new 2).reset.crossing_count = 0 ∧
    (FingerprintState.new 2).reset.burau_matrix = 1 ∧
    (FingerprintState.new 2).reset.burau_trace_magnitude = 2 ∧
    (FingerprintState.new 2).reset.player_stats = (fun _ => none) ∧
    (FingerprintState.new 2).reset.dimension = 2 := by
  have h := new_reset_spec 2 (by decide) (FingerprintState.new 2)
  simpa using h

/-- Claim C7: `update_for_seat` with `seat = 0` or `seat > dimension` performs
exactly the global `update` — the per-seat map is not touched (so no entry
is created or modified) and no failure occurs. -/
theorem update_for_seat_out_of_range (d : ℕ) (s : FingerprintState d)
    (g : Generator) (seat : ℕ) (name : String) (h : seat = 0 ∨ d < seat) :
    s.update_for_seat g seat name = s.update g ∧
    (s.update_for_seat g seat name).player_stats = s.player_stats := by
  have he : s.update_for_seat g seat name = s.update g := by
    unfold FingerprintState.update_for_seat
    simp only [h, if_pos]
  exact ⟨he, by rw [he]; exact (update_nonmatrix_fields s g).2.1⟩

/-- Witness for `update_for_seat_out_of_range` with `seat = 3 > 2`. -/
theorem update_for_seat_out_of_range_witness :
    (FingerprintState.new 2).update_for_seat (Generator.Sigma 1) 3 "p"
        = (FingerprintState.new 2).update (Generator.Sigma 1) ∧
    ((FingerprintState.new 2).update_for_seat (Generator.Sigma 1) 3 "p").player_stats
        = (FingerprintState.new 2).player_stats :=
  update_for_seat_out_of_range 2 (FingerprintState.new 2) (Generator.Sigma 1) 3 "p"
    (Or.inr (by decide))

/-- Claim C9: `process_action` on a non-`Reset` action leaves the per-seat map,
the parameter `t`, and the dimension unchanged, for every optional current
seat. -/
theorem process_action_frame (d : ℕ) (s : FingerprintState d) (action : Action)
    (h : action.action_type ≠ ActionType.Reset) (cs : Option ℕ) :
    ((s.process_action action cs).1).player_stats = s.player_stats ∧
    ((s.process_action action cs).1).t_param = s.t_param ∧
    ((s.process_action action cs).1).dimension = s.dimension := by
  unfold FingerprintState.process_action
  rw [if_neg h]
  exact ⟨(foldl_update_stats _ s).1, (foldl_update_stats _ s).2, rfl⟩

/-- Witness for `process_action_frame` with a `Call` action. -/
theorem process_action_frame_witness :
    (((FingerprintState.new 4).process_action ⟨3, ActionType.Call, 10⟩ (some 1)).1).player_stats
        = (FingerprintState.new 4).player_stats ∧
    (((FingerprintState.new 4).process_action ⟨3, ActionType.Call, 10⟩ (some 1)).1).t_param
        = (FingerprintState.new 4).t_param ∧
    (((FingerprintState.new 4).process_action ⟨3, ActionType.Call, 10⟩ (some 1)).1).dimension
        = (FingerprintState.new 4).dimension :=
  process_action_frame 4 (FingerprintState.new 4) ⟨3, ActionType.Call, 10⟩
    (by decide) (some 1)

theorem golden_t_ne_zero : golden_t ≠ 0 := by
  intro h
  have him : Real.sin 1 = 0 := congrArg Complex.im h
  have hpos : 0 < Real.sin 1 :=
    Real.sin_pos_of_pos_of_lt_pi (by norm_num)
      (lt_trans (by norm_num) Real.pi_gt_three)
  linarith

theorem update_cancel_general (d k : ℕ) (hk1 : 1 ≤ k) (hk2 : k < d)
    (s : FingerprintState d) (ht : s.t_param ≠ 0) :
    ((s.update (Generator.Sigma k)).update (Generator.InverseSigma k)).burau_matrix
      = s.burau_matrix := by
  have hno : ¬ (k = 0 ∨ d ≤ k) := by omega
  have h1 : (s.update (Generator.Sigma k)).burau_matrix
      = s.burau_matrix * u_mat d s.t_param k := apply_sigma_matrix_mul s k hno
  have ht1 : (s.update (Generator.Sigma k)).t_param = s.t_param :=
    (update_nonmatrix_fields s (Generator.Sigma k)).1
  have h2 : ((s.update (Generator.Sigma k)).update (Generator.InverseSigma k)).burau_matrix
      = (s.update (Generator.Sigma k)).burau_matrix
          * u_inv_mat d (s.update (Generator.Sigma k)).t_param k :=
    apply_inverse_sigma_matrix_mul _ k hno
  rw [h2, ht1, h1, Matrix.mul_assoc, u_mul_u_inv s.t_param ht k hk1 hk2,
    Matrix.mul_one]

/-- Claim C2: for `1 ≤ k < d`, `update (Sigma k)` followed by
`update (InverseSigma k)` returns the Burau matrix exactly (hence within any
floating-point tolerance) to its prior value on any state carrying the
session parameter `t = e^i`; starting from the identity state built by
`new`, every entry of the difference from the identity matrix has complex
modulus at most `1e-10`. -/
theorem sigma_inverse_cancel (d k : ℕ) (hk1 : 1 ≤ k) (hk2 : k < d)
    (s : FingerprintState d) (hs : s.t_param = golden_t) :
    ((s.update (Generator.Sigma k)).update (Generator.InverseSigma k)).burau_matrix
      = s.burau_matrix ∧
    ∀ a b : Fin d,
      Complex.abs
        ((((FingerprintState.new d).update (Generator.Sigma k)).update
            (Generator.InverseSigma k)).burau_matrix a b
          - (1 : Matrix (Fin d) (Fin d) ℂ) a b) ≤ 1 / 10 ^ 10 := by
  have ht : s.t_param ≠ 0 := by rw [hs]; exact golden_t_ne_zero
  refine ⟨update_cancel_general d k hk1 hk2 s ht, fun a b => ?_⟩
  have hnew : (((FingerprintState.new d).update (Generator.Sigma k)).update
      (Generator.InverseSigma k)).burau_matrix = (FingerprintState.new d).burau_matrix :=
    update_cancel_general d k hk1 hk2 (FingerprintState.new d) golden_t_ne_zero
  rw [hnew]
  show Complex.abs ((1 : Matrix (Fin d) (Fin d) ℂ) a b
    - (1 : Matrix (Fin d) (Fin d) ℂ) a b) ≤ 1 / 10 ^ 10
  rw [sub_self]
  rw [map_zero]
  norm_num

/-- Witness for `sigma_inverse_cancel` at `d = 2`, `k = 1`, on the fresh
state, with the difference bound read off at entry `(0, 0)`. -/
theorem sigma_inverse_cancel_witness :
    (((FingerprintState.new 2).update (Generator.Sigma 1)).update
        (Generator.InverseSigma 1)).burau_matrix
      = (FingerprintState.new 2).burau_matrix ∧
    Complex.abs
      ((((FingerprintState.new 2).update (Generator.Sigma 1)).update
          (Generator.InverseSigma 1)).burau_matrix 0 0
        - (1 : Matrix (Fin 2) (Fin 2) ℂ) 0 0) ≤ 1 / 10 ^ 10 :=
  ⟨(sigma_inverse_cancel 2 1 (by decide) (by decide) (FingerprintState.new 2) rfl).1,
    (sigma_inverse_cancel 2 1 (by decide) (by decide) (FingerprintState.new 2) rfl).2 0 0⟩

/-- Claim C4: on nonzero raw seats and `total ≥ 1`, `expand_action` has length
`|to' - from'|` for the `safe_seat`-mapped endpoints, is empty when they
agree, consists of `Sigma from', …, Sigma (to'-1)` when ascending and of
`InverseSigma (from'-1), …, InverseSigma to'` when descending, and is empty
whenever a raw seat value is `0`. -/
theorem expand_action_spec (from_val to_val total : ℕ)
    (hf : from_val ≠ 0) (htv : to_val ≠ 0) (htot : 1 ≤ total) :
    (expand_action from_val to_val total).length
        = ((safe_seat to_val total : ℤ) - (safe_seat from_val total : ℤ)).natAbs ∧
    (safe_seat from_val total = safe_seat to_val total →
      expand_action from_val to_val total = []) ∧
    (safe_seat from_val total < safe_seat to_val total →
      expand_action from_val to_val total =
        (List.range' (safe_seat from_val total)
          (safe_seat to_val total - safe_seat from_val total)).map Generator.Sigma) ∧
    (safe_seat to_val total < safe_seat from_val total →
      expand_action from_val to_val total =
        ((List.range' (safe_seat to_val total)
          (safe_seat from_val total - safe_seat to_val total)).reverse).map
            Generator.InverseSigma) ∧
    (∀ a b tot : ℕ, a = 0 ∨ b = 0 → expand_action a b tot = []) := by
  rw [expand_action_eq from_val to_val total hf htv]
  refine ⟨?_, ?_, ?_, ?_, ?_⟩
  · split
    · simp only [List.length_map, List.length_range']
      omega
    · simp only [List.length_map, List.length_reverse, List.length_range']
      omega
  · intro h
    rw [if_pos (le_of_eq h), h]
    simp
  · intro h
    rw [if_pos (le_of_lt h)]
  · intro h
    rw [if_neg (not_le.mpr h)]
  · intro a b tot h
    unfold expand_action
    rw [if_pos h]

/-- Witness for `expand_action_spec` at `from = 4`, `to = 1`, `total = 4`
(a descending move). -/
theorem expand_action_spec_witness :
    (expand_action 4 1 4).length
        = ((safe_seat 1 4 : ℤ) - (safe_seat 4 4 : ℤ)).natAbs ∧
    (safe_seat 4 4 = safe_seat 1 4 → expand_action 4 1 4 = []) ∧
    (safe_seat 4 4 < safe_seat 1 4 →
      expand_action 4 1 4 =
        (List.range' (safe_seat 4 4) (safe_seat 1 4 - safe_seat 4 4)).map
          Generator.Sigma) ∧
    (safe_seat 1 4 < safe_seat 4 4 →
      expand_action 4 1 4 =
        ((List.range' (safe_seat 1 4) (safe_seat 4 4 - safe_seat 1 4)).reverse).map
          Generator.InverseSigma) ∧
    (∀ a b tot : ℕ, a = 0 ∨ b = 0 → expand_action a b tot = []) :=
  expand_action_spec 4 1 4 (by decide) (by decide) (by decide)

/-- Claim C10: every generator produced by `expand_action` on nonzero raw seats
with `total ≥ 1` has its index in `[1, total - 1]`, so on a state of
dimension `total` the guarded no-op branch of the matrix update is never
taken: the corresponding elementary-matrix multiplication is always
performed alongside the counter updates. -/
theorem expand_action_indices_in_range (from_val to_val total : ℕ)
    (hf : from_val ≠ 0) (htv : to_val ≠ 0) (htot : 1 ≤ total) :
    ∀ g ∈ expand_action from_val to_val total,
      (1 ≤ g.index ∧ g.index ≤ total - 1) ∧
      ¬ (g.index = 0 ∨ total ≤ g.index) ∧
      ∀ s : FingerprintState total,
        (s.update g).burau_matrix
          = s.burau_matrix *
              (match g with
                | Generator.Sigma k => u_mat total s.t_param k
                | Generator.InverseSigma k => u_inv_mat total s.t_param k) := by
  intro g hg
  rw [expand_action_eq from_val to_val total hf htv] at hg
  have hf1 : 1 ≤ safe_seat from_val total := safe_seat_pos from_val total
  have hf2 : safe_seat from_val total ≤ total := safe_seat_le from_val total htot
  have ht1 : 1 ≤ safe_seat to_val total := safe_seat_pos to_val total
  have ht2 : safe_seat to_val total ≤ total := safe_seat_le to_val total htot
  have hbounds : (1 ≤ g.index ∧ g.index ≤ total - 1) ∧
      ¬ (g.index = 0 ∨ total ≤ g.index) := by
    split at hg
    · obtain ⟨p, hp, rfl⟩ := List.mem_map.1 hg
      rw [List.mem_range'_1] at hp
      refine ⟨⟨by simp [Generator.index]; omega, by simp [Generator.index]; omega⟩, ?_⟩
      simp [Generator.index]
      omega
    · obtain ⟨p, hp, rfl⟩ := List.mem_map.1 hg
      rw [List.mem_reverse, List.mem_range'_1] at hp
      refine ⟨⟨by simp [Generator.index]; omega, by simp [Generator.index]; omega⟩, ?_⟩
      simp [Generator.index]
      omega
  refine ⟨hbounds.1, hbounds.2, fun s => ?_⟩
  cases g with
  | Sigma k =>
    exact apply_sigma_matrix_mul s k (by have := hbounds.2; simpa [Generator.index] using this)
  | InverseSigma k =>
    exact apply_inverse_sigma_matrix_mul s k (by have := hbounds.2; simpa [Generator.index] using this)

theorem expand_1_3_4 : expand_action 1 3 4 = [Generator.Sigma 1, Generator.Sigma 2] := by
  have h := expandSteps_up 1 2
  norm_num at h
  simp [expand_action, safe_seat, h, List.range']

theorem expand_3_2_4 : expand_action 3 2 4 = [Generator.InverseSigma 2] := by
  have h := expandSteps_down 2 1
  norm_num at h
  simp [expand_action, safe_seat, h, List.range']

theorem expand_2_4_4 : expand_action 2 4 4 = [Generator.Sigma 2, Generator.Sigma 3] := by
  have h := expandSteps_up 2 2
  norm_num at h
  simp [expand_action, safe_seat, h, List.range']

theorem expand_4_1_4 : expand_action 4 1 4
    = [Generator.InverseSigma 3, Generator.InverseSigma 2, Generator.InverseSigma 1] := by
  have h := expandSteps_down 1 3
  norm_num at h
  simp [expand_action, safe_seat, h, List.range']

/-- Witness for `expand_action_indices_in_range`: the first generator of the
leg `1 → 3` at `total = 4`, applied to a fresh 4-dimensional state. -/
theorem expand_action_indices_in_range_witness :
    (1 ≤ (Generator.Sigma 1).index ∧ (Generator.Sigma 1).index ≤ 4 - 1) ∧
    ¬ ((Generator.Sigma 1).index = 0 ∨ 4 ≤ (Generator.Sigma 1).index) ∧
    ((FingerprintState.new 4).update (Generator.Sigma 1)).burau_matrix
      = (FingerprintState.new 4).burau_matrix
          * u_mat 4 (FingerprintState.new 4).t_param 1 := by
  have hmem : Generator.Sigma 1 ∈ expand_action 1 3 4 := by
    rw [expand_1_3_4]; exact List.mem_cons_self _ _
  have h := expand_action_indices_in_range 1 3 4 (by decide) (by decide) (by decide)
    (Generator.Sigma 1) hmem
  exact ⟨h.1, h.2.1, h.2.2 (FingerprintState.new 4)⟩

/-- The product of the elementary matrices selected by a word, in
application order (used to reason about repeated `update` calls). -/
noncomputable def word_matrix (d : ℕ) (t : ℂ) : List Generator → Matrix (Fin d) (Fin d) ℂ
  | [] => 1
  | g :: rest =>
    (match g with
      | Generator.Sigma k => u_mat d t k
      | Generator.InverseSigma k => u_inv_mat d t k) * word_matrix d t rest

theorem foldl_update_matrix {d : ℕ} :
    ∀ (l : List Generator) (s : FingerprintState d),
      (∀ g ∈ l, ¬ (g.index = 0 ∨ d ≤ g.index)) →
      (l.foldl (fun st g => st.update g) s).burau_matrix
        = s.burau_matrix * word_matrix d s.t_param l
  | [], s, _ => by simp [word_matrix]
  | g :: l, s, h => by
    have hg := h g (List.mem_cons_self g l)
    have hrest : ∀ g' ∈ l, ¬ (g'.index = 0 ∨ d ≤ g'.index) :=
      fun g' hg' => h g' (List.mem_cons_of_mem g hg')
    have hrec := foldl_update_matrix l (s.update g) hrest
    simp only [List.foldl_cons]
    rw [hrec, (update_nonmatrix_fields s g).1]
    cases g with
    | Sigma k =>
      have hbm : (s.update (Generator.Sigma k)).burau_matrix
          = s.burau_matrix * u_mat d s.t_param k :=
        apply_sigma_matrix_mul s k (by simpa [Generator.index] using hg)
      rw [hbm]
      simp only [word_matrix]
      rw [Matrix.mul_assoc]
    | InverseSigma k =>
      have hbm : (s.update (Generator.InverseSigma k)).burau_matrix
          = s.burau_matrix * u_inv_mat d s.t_param k :=
        apply_inverse_sigma_matrix_mul s k (by simpa [Generator.index] using hg)
      rw [hbm]
      simp only [word_matrix]
      rw [Matrix.mul_assoc]

theorem toy_word_matrix_one :
    word_matrix 4 golden_t
      [Generator.Sigma 1, Generator.Sigma 2, Generator.InverseSigma 2,
        Generator.Sigma 2, Generator.Sigma 3, Generator.InverseSigma 3,
        Generator.InverseSigma 2, Generator.InverseSigma 1] = 1 := by
  have hc : ∀ (k : ℕ), 1 ≤ k → k < 4 → ∀ M : Matrix (Fin 4) (Fin 4) ℂ,
      u_mat 4 golden_t k * (u_inv_mat 4 golden_t k * M) = M := by
    intro k hk1 hk2 M
    rw [← Matrix.mul_assoc, u_mul_u_inv golden_t golden_t_ne_zero k hk1 hk2,
      Matrix.one_mul]
  simp only [word_matrix, Matrix.mul_one]
  rw [hc 3 (by norm_num) (by norm_num)
      (u_inv_mat 4 golden_t 2 * u_inv_mat 4 golden_t 1),
    hc 2 (by norm_num) (by norm_num) (u_inv_mat 4 golden_t 1),
    hc 2 (by norm_num) (by norm_num) (u_inv_mat 4 golden_t 1),
    u_mul_u_inv golden_t golden_t_ne_zero 1 (by norm_num) (by norm_num)]

theorem toy_hand_generators :
    expand_action 1 3 4 ++ expand_action 3 2 4 ++ expand_action 2 4 4
        ++ expand_action 4 1 4
      = [Generator.Sigma 1, Generator.Sigma 2, Generator.InverseSigma 2,
          Generator.Sigma 2, Generator.Sigma 3, Generator.InverseSigma 3,
          Generator.InverseSigma 2, Generator.InverseSigma 1] := by
  rw [expand_1_3_4, expand_3_2_4, expand_2_4_4, expand_4_1_4]
  rfl

theorem toy_hand_final_matrix :
    (([Generator.Sigma 1, Generator.Sigma 2, Generator.InverseSigma 2,
        Generator.Sigma 2, Generator.Sigma 3, Generator.InverseSigma 3,
        Generator.InverseSigma 2, Generator.InverseSigma 1].foldl
          (fun st g => st.update g) (FingerprintState.new 4))).burau_matrix = 1 := by
  rw [foldl_update_matrix _ (FingerprintState.new 4) (by decide)]
  show (1 : Matrix (Fin 4) (Fin 4) ℂ) * word_matrix 4 golden_t _ = 1
  rw [Matrix.one_mul, toy_word_matrix_one]

end PokerBraids
